import Mathlib

/-!
# Verification of the voting-rule library (`voting.py`)

Shallow embedding of the repository's single source file `src/voting.py`.

Modelling conventions:
* A preference profile (the abstract `Preference` class) is a structure holding
  the ordered candidate list, the ordered voter list, and the total rank
  function `get_preference`.  Candidate and voter identifiers are integers,
  ranks are integers (Python `int`).
* A Python score dictionary whose keys are exactly the candidates is modelled
  as a total function `Int → Int` together with the candidate list; dictionary
  iteration (`values()`, `items()`) follows the candidate list.  This is
  faithful whenever the candidate list has no duplicates, which is part of the
  data-model contract (`Preference.valid` below).
* Python `max` / `min` over an iterable is `pymax` / `pymin`: a left fold of
  `max` / `min` over the elements, `none` on the empty iterable (where Python
  raises `ValueError`).
* A function that may raise returns `Except String (Option Int)`:
  `.error msg` is a raised `ValueError`, `.ok none` is a returned `None`,
  `.ok (some c)` is a returned candidate.
* Python's stable `sorted(xs, key=k)` is modelled by `List.insertionSort`
  with the relation `fun a b => k a ≤ k b`, which is a stable sort.
* STV's `while` loop is modelled with explicit fuel `|candidates|`; the
  termination development (claim C10) proves each round strictly shrinks the
  remaining set, so this fuel always reaches the loop's exit condition and the
  fuelled loop agrees with the unbounded `while` loop.
-/

namespace Voting

/-- The preference-profile interface (`Preference` class): an ordered list of
candidates, an ordered list of voters, and the rank of each candidate for each
voter (0 = most preferred). -/
structure Preference where
  candidates : List Int
  voters : List Int
  get_preference : Int → Int → Int

/-- Python `max(xs)`: fold of `max` over the elements in iteration order,
`none` when the iterable is empty (Python raises `ValueError`). -/
def pymax {α : Type} [Max α] : List α → Option α
  | [] => none
  | a :: l => some (l.foldl max a)

/-- Python `min(xs)`: fold of `min` over the elements in iteration order,
`none` when the iterable is empty (Python raises `ValueError`). -/
def pymin {α : Type} [Min α] : List α → Option α
  | [] => none
  | a :: l => some (l.foldl min a)

/-- `tie_break(candidates, winners)`: the first element of `candidates` that is
a member of `winners`, `none` if there is no such element. -/
def tie_break (candidates winners : List Int) : Option Int :=
  candidates.find? (fun c => winners.contains c)

/-- The type of the rule-specific scoring steps passed to `calculate_points`:
given the profile, a voter and the current score table, produce the updated
score table. -/
abbrev ScoringFn := Preference → Int → (Int → Int) → (Int → Int)

/-- The type of tie-break functions passed to `calculate_points`. -/
abbrev TieBreakFn := List Int → List Int → Option Int

/-- Steps 1–2 of `calculate_points`: start every candidate at score 0 and fold
the scoring step over the voters. -/
def accumulated_scores (P : Preference) (scoring_fn : ScoringFn) : Int → Int :=
  P.voters.foldl (fun s v => scoring_fn P v s) (fun _ => 0)

/-- Step 3 of `calculate_points`: `max(scores.values())`. -/
def highest_score (P : Preference) (scoring_fn : ScoringFn) : Option Int :=
  pymax (P.candidates.map (accumulated_scores P scoring_fn))

/-- Step 4 of `calculate_points`: the candidates whose score equals the
highest score, in candidate order (empty only when there are no candidates). -/
def winnersOf (P : Preference) (scoring_fn : ScoringFn) : List Int :=
  match highest_score P scoring_fn with
  | none => []
  | some h => P.candidates.filter (fun c => decide (accumulated_scores P scoring_fn c = h))

/-- `calculate_points(preferences, tie_break, scoring_fn)`: accumulate the
scores, take the maximum (a raised `ValueError` when there are no candidates),
collect the winners, and return the single winner directly or delegate to the
tie-break function when several candidates tie. -/
def calculate_points (P : Preference) (tb : TieBreakFn) (scoring_fn : ScoringFn) :
    Except String (Option Int) :=
  match highest_score P scoring_fn with
  | none => .error "max() arg is an empty sequence"
  | some _ =>
    let winners := winnersOf P scoring_fn
    if winners.length > 1 then .ok (tb P.candidates winners)
    else
      match winners with
      | [] => .error "list index out of range"
      | w :: _ => .ok (some w)

/-- `dictatorship(preferences, agent)`: raise `ValueError("Invalid agent")`
when the agent is not a voter, otherwise return the first candidate the agent
ranks 0 (`None` when there is none). -/
def dictatorship (P : Preference) (agent : Int) : Except String (Option Int) :=
  if agent ∈ P.voters then
    .ok (P.candidates.find? (fun c => decide (P.get_preference c agent = 0)))
  else .error "Invalid agent"

/-- The inner `scoring_fn` of `scoring_rule`: stably sort the candidates by the
voter's ranking and add `score_vector[position]` to the candidate at each
position of the sorted order. -/
def scoring_rule_fn (score_vector : List Int) : ScoringFn := fun prefs voter scores =>
  let sorted_candidates :=
    List.insertionSort
      (fun a b => prefs.get_preference a voter ≤ prefs.get_preference b voter)
      prefs.candidates
  sorted_candidates.enum.foldl
    (fun s p => fun y => if y = p.2 then s y + score_vector.getD p.1 0 else s y)
    scores

/-- The `tie_break_fn` lambda of `scoring_rule`: sort the passed candidate list
by the tie-break agent's ranking, then apply the plain tie-break primitive. -/
def scoring_rule_tb (P : Preference) (tie_break_agent : Int) : TieBreakFn := fun c w =>
  tie_break
    (List.insertionSort
      (fun a b => P.get_preference a tie_break_agent ≤ P.get_preference b tie_break_agent) c)
    w

/-- `scoring_rule(preferences, score_vector, tie_break_agent)`: raise
`ValueError("Score vector length mismatch")` when the vector's length differs
from the candidate count, otherwise run the aggregator with the positional
scoring step and the agent-sorted tie break. -/
def scoring_rule (P : Preference) (score_vector : List Int) (tie_break_agent : Int) :
    Except String (Option Int) :=
  if score_vector.length ≠ P.candidates.length then .error "Score vector length mismatch"
  else calculate_points P (scoring_rule_tb P tie_break_agent) (scoring_rule_fn score_vector)

/-- The `scoring_fn` lambda of `plurality`: add one point to every candidate
the voter ranks 0. -/
def plurality_fn : ScoringFn := fun prefs voter scores => fun c =>
  if c ∈ prefs.candidates ∧ prefs.get_preference c voter = 0 then scores c + 1 else scores c

/-- `plurality(preferences, tie_break)`. -/
def plurality (P : Preference) (tb : TieBreakFn) : Except String (Option Int) :=
  calculate_points P tb plurality_fn

/-- The `scoring_fn` lambda of `borda`: add `n - 1 - rank` points to every
candidate. -/
def borda_fn : ScoringFn := fun prefs voter scores => fun c =>
  if c ∈ prefs.candidates then
    scores c + ((prefs.candidates.length : Int) - 1 - prefs.get_preference c voter)
  else scores c

/-- `borda(preferences, tie_break)`. -/
def borda (P : Preference) (tb : TieBreakFn) : Except String (Option Int) :=
  calculate_points P tb borda_fn

/-- One STV score: the number of voters ranking candidate `c` at 0
(`sum(1 for v in voters if preferences.get_preference(c, v) == 0)`). -/
def stv_scores (P : Preference) (voters : List Int) (c : Int) : Nat :=
  voters.countP (fun v => decide (P.get_preference c v = 0))

/-- One STV round on the remaining candidates: compute every remaining
candidate's first-place count, take the minimum, and remove every candidate
attaining it (the Python set difference, here a filter preserving order). -/
def stv_round (P : Preference) (voters remaining : List Int) : List Int :=
  match pymin (remaining.map (stv_scores P voters)) with
  | none => remaining
  | some m => remaining.filter (fun c => decide (stv_scores P voters c ≠ m))

/-- The STV `while len(candidates) > 1` loop, with explicit fuel.  The
termination theorems below show fuel `remaining.length` always reaches the
exit condition, so this agrees with the unbounded loop. -/
def stv_loop (P : Preference) (voters : List Int) : Nat → List Int → List Int
  | 0, remaining => remaining
  | fuel + 1, remaining =>
    if remaining.length > 1 then stv_loop P voters fuel (stv_round P voters remaining)
    else remaining

/-- `STV(preferences, tie_break)`: run the elimination loop from the full
candidate set and return the remaining candidate (`next(iter(candidates),
None)`), `none` when the final set is empty.  The `tie_break` parameter is
accepted but never used, as in the source. -/
def STV {α : Type} (P : Preference) (tie_break : α) : Option Int :=
  (stv_loop P P.voters P.candidates.length P.candidates).head?

/-- The data-model contract of §3 of the design: candidates and voters are
distinct, and for every voter the ranks of the candidates are exactly
`{0, …, n-1}` (the rank function is a bijection onto the rank range). -/
def Preference.valid (P : Preference) : Prop :=
  P.candidates.Nodup ∧ P.voters.Nodup ∧
    ∀ v ∈ P.voters,
      (P.candidates.map (fun c => P.get_preference c v)).Perm
        ((List.range P.candidates.length).map (fun i : Nat => (i : Int)))

instance (P : Preference) : Decidable P.valid := by
  unfold Preference.valid
  infer_instance

/-- The Borda score vector `[n-1, n-2, ..., 0]`. -/
def bordaVector (n : Nat) : List Int :=
  (List.range n).map (fun i : Nat => (n : Int) - 1 - (i : Int))

/-- Concrete profile: three candidates, two voters, both voters rank
`1 > 2 > 3`. -/
def P1 : Preference where
  candidates := [1, 2, 3]
  voters := [1, 2]
  get_preference := fun c _ => c - 1

/-- Concrete profile of §8 of the design: three candidates, three voters,
voter 1: `1 > 2 > 3`, voter 2: `2 > 1 > 3`, voter 3: `3 > 1 > 2`. -/
def P3 : Preference where
  candidates := [1, 2, 3]
  voters := [1, 2, 3]
  get_preference := fun c v =>
    match v, c with
    | 1, 1 => 0 | 1, 2 => 1 | 1, 3 => 2
    | 2, 2 => 0 | 2, 1 => 1 | 2, 3 => 2
    | 3, 3 => 0 | 3, 1 => 1 | 3, 2 => 2
    | _, _ => 0

/-- Concrete profile with two candidates and no voters. -/
def Pnovoters : Preference where
  candidates := [1, 2]
  voters := []
  get_preference := fun _ _ => 0

/-- Concrete profile with one candidate and one voter ranking it 0. -/
def Psingle : Preference where
  candidates := [1]
  voters := [1]
  get_preference := fun _ _ => 0

/-- Concrete profile with one candidate and one voter in which no candidate is
ranked 0 (the ranking invariant is violated). -/
def Pnorankzero : Preference where
  candidates := [1]
  voters := [1]
  get_preference := fun _ _ => 1

/-! ## Helper lemmas about `pymax` and `pymin` -/

theorem foldl_max_mem {α : Type} [LinearOrder α] (l : List α) (a : α) :
    l.foldl max a = a ∨ l.foldl max a ∈ l := by
  induction l generalizing a with
  | nil => exact .inl rfl
  | cons b t ih =>
    rw [List.foldl_cons]
    rcases ih (max a b) with h | h
    · rcases max_choice a b with hm | hm
      · exact .inl (by rw [h, hm])
      · exact .inr (by rw [h, hm]; exact List.mem_cons_self _ _)
    · exact .inr (List.mem_cons_of_mem _ h)

theorem le_foldl_max {α : Type} [LinearOrder α] (l : List α) (a : α) :
    a ≤ l.foldl max a := by
  induction l generalizing a with
  | nil => exact le_refl a
  | cons b t ih => exact le_trans (le_max_left a b) (ih (max a b))

theorem mem_le_foldl_max {α : Type} [LinearOrder α] {l : List α} {b : α} (a : α)
    (hb : b ∈ l) : b ≤ l.foldl max a := by
  induction l generalizing a with
  | nil => cases hb
  | cons c t ih =>
    rw [List.foldl_cons]
    rcases List.mem_cons.mp hb with h | h
    · rw [h]; exact le_trans (le_max_right a c) (le_foldl_max t (max a c))
    · exact ih (max a c) h

theorem pymax_spec {α : Type} [LinearOrder α] {l : List α} (hl : l ≠ []) :
    ∃ m, pymax l = some m ∧ m ∈ l ∧ ∀ b ∈ l, b ≤ m := by
  match l with
  | [] => exact absurd rfl hl
  | a :: t =>
    refine ⟨t.foldl max a, rfl, ?_, ?_⟩
    · rcases foldl_max_mem t a with h | h
      · rw [h]; exact List.mem_cons_self _ _
      · exact List.mem_cons_of_mem _ h
    · intro b hb
      rcases List.mem_cons.mp hb with h | h
      · exact h ▸ le_foldl_max t a
      · exact mem_le_foldl_max a h

theorem foldl_min_mem {α : Type} [LinearOrder α] (l : List α) (a : α) :
    l.foldl min a = a ∨ l.foldl min a ∈ l := by
  induction l generalizing a with
  | nil => exact .inl rfl
  | cons b t ih =>
    rw [List.foldl_cons]
    rcases ih (min a b) with h | h
    · rcases min_choice a b with hm | hm
      · exact .inl (by rw [h, hm])
      · exact .inr (by rw [h, hm]; exact List.mem_cons_self _ _)
    · exact .inr (List.mem_cons_of_mem _ h)

theorem foldl_min_le {α : Type} [LinearOrder α] (l : List α) (a : α) :
    l.foldl min a ≤ a := by
  induction l generalizing a with
  | nil => exact le_refl a
  | cons b t ih => exact le_trans (ih (min a b)) (min_le_left a b)

theorem foldl_min_le_mem {α : Type} [LinearOrder α] {l : List α} {b : α} (a : α)
    (hb : b ∈ l) : l.foldl min a ≤ b := by
  induction l generalizing a with
  | nil => cases hb
  | cons c t ih =>
    rw [List.foldl_cons]
    rcases List.mem_cons.mp hb with h | h
    · rw [h]; exact le_trans (foldl_min_le t (min a c)) (min_le_right a c)
    · exact ih (min a c) h

theorem pymin_spec {α : Type} [LinearOrder α] {l : List α} (hl : l ≠ []) :
    ∃ m, pymin l = some m ∧ m ∈ l ∧ ∀ b ∈ l, m ≤ b := by
  match l with
  | [] => exact absurd rfl hl
  | a :: t =>
    refine ⟨t.foldl min a, rfl, ?_, ?_⟩
    · rcases foldl_min_mem t a with h | h
      · rw [h]; exact List.mem_cons_self _ _
      · exact List.mem_cons_of_mem _ h
    · intro b hb
      rcases List.mem_cons.mp hb with h | h
      · exact h ▸ foldl_min_le t a
      · exact foldl_min_le_mem a h

/-! ## Helper lemmas about the scoring aggregator -/

theorem highest_score_some {P : Preference} {f : ScoringFn} (hc : P.candidates ≠ []) :
    ∃ h, highest_score P f = some h ∧
      (∃ c ∈ P.candidates, accumulated_scores P f c = h) ∧
      ∀ c ∈ P.candidates, accumulated_scores P f c ≤ h := by
  have hmap : P.candidates.map (accumulated_scores P f) ≠ [] := by
    simpa using hc
  obtain ⟨m, hm, hmem, hle⟩ := pymax_spec hmap
  obtain ⟨c, hcmem, hcval⟩ := List.mem_map.mp hmem
  exact ⟨m, hm, ⟨c, hcmem, hcval⟩,
    fun c hcm => hle _ (List.mem_map.mpr ⟨c, hcm, rfl⟩)⟩

theorem winnersOf_ne_nil {P : Preference} {f : ScoringFn} (hc : P.candidates ≠ []) :
    winnersOf P f ≠ [] := by
  obtain ⟨h, hh, ⟨c, hcm, hcv⟩, -⟩ := highest_score_some (f := f) hc
  have : c ∈ winnersOf P f := by
    rw [winnersOf, hh]
    exact List.mem_filter.mpr ⟨hcm, by simpa using hcv⟩
  exact fun hnil => by simp [hnil] at this

theorem calculate_points_of_single {P : Preference} {f : ScoringFn} {w : Int}
    (hw : winnersOf P f = [w]) (tb : TieBreakFn) :
    calculate_points P tb f = .ok (some w) := by
  rw [calculate_points]
  rcases hh : highest_score P f with - | h
  · rw [winnersOf, hh] at hw; cases hw
  · simp only [hw]
    norm_num

theorem calculate_points_of_tie {P : Preference} {f : ScoringFn}
    (hw : (winnersOf P f).length > 1) (tb : TieBreakFn) :
    calculate_points P tb f = .ok (tb P.candidates (winnersOf P f)) := by
  rw [calculate_points]
  rcases hh : highest_score P f with - | h
  · rw [winnersOf, hh] at hw; simp at hw
  · simp only [if_pos hw]

theorem calculate_points_ok {P : Preference} (tb : TieBreakFn) (f : ScoringFn)
    (hc : P.candidates ≠ []) : ∃ r, calculate_points P tb f = .ok r := by
  have hwne := winnersOf_ne_nil (f := f) hc
  rcases hw : winnersOf P f with - | ⟨w, t⟩
  · exact absurd hw hwne
  · rcases t with - | ⟨w', t'⟩
    · exact ⟨some w, calculate_points_of_single hw tb⟩
    · exact ⟨tb P.candidates (winnersOf P f),
        calculate_points_of_tie (by rw [hw]; simp only [List.length_cons]; omega) tb⟩

/-! ## C1: the scoring aggregator -/

/-- C1: for every profile with a non-empty (duplicate-free) candidate list and
every scoring step and tie-break function, `calculate_points` has a non-empty
winner set, the highest score bounds every candidate's accumulated score, a
unique winner is returned directly (for every tie-break function alike, so the
tie-break function is not consulted), and at least two tied winners are
delegated to `tie_break_fn(profile.candidates(), winners)` — never an empty
winner set. -/
theorem calculate_points_aggregator_spec (P : Preference) (f : ScoringFn)
    (hnd : P.candidates.Nodup) (hc : P.candidates ≠ []) :
    winnersOf P f ≠ [] ∧
    (∀ h, highest_score P f = some h → ∀ c ∈ P.candidates, accumulated_scores P f c ≤ h) ∧
    (∀ w, winnersOf P f = [w] → ∀ tb : TieBreakFn, calculate_points P tb f = .ok (some w)) ∧
    (∀ tb : TieBreakFn, (winnersOf P f).length > 1 →
      calculate_points P tb f = .ok (tb P.candidates (winnersOf P f))) := by
  refine ⟨winnersOf_ne_nil hc, ?_, ?_, ?_⟩
  · intro h hh c hcm
    obtain ⟨h', hh', -, hle⟩ := highest_score_some (f := f) hc
    rw [hh] at hh'
    cases hh'
    exact hle c hcm
  · intro w hw tb
    exact calculate_points_of_single hw tb
  · intro tb hlen
    exact calculate_points_of_tie hlen tb

/-- Witness for C1 at concrete profiles: on the unanimous profile `P1` the
unique winner is returned directly, and on the cyclic profile `P3` plurality
produces a full tie that is delegated to the tie-break function. -/
theorem calculate_points_aggregator_spec_witness :
    calculate_points P1 tie_break plurality_fn = .ok (some 1) ∧
    calculate_points P3 tie_break plurality_fn =
      .ok (tie_break P3.candidates (winnersOf P3 plurality_fn)) ∧
    winnersOf P3 plurality_fn ≠ [] :=
  ⟨(calculate_points_aggregator_spec P1 plurality_fn (by decide) (by decide)).2.2.1
      1 (by decide) tie_break,
   (calculate_points_aggregator_spec P3 plurality_fn (by decide) (by decide)).2.2.2
      tie_break (by decide),
   (calculate_points_aggregator_spec P3 plurality_fn (by decide) (by decide)).1⟩

/-! ## C2: the tie-break primitive -/

/-- C2: `tie_break(order, winners)` returns `none` when no element of `order`
belongs to `winners` (in particular when `winners` is empty), and otherwise
returns the first element of `order` that belongs to `winners`. -/
theorem tie_break_first_match (order winners : List Int) :
    ((∀ c ∈ order, c ∉ winners) → tie_break order winners = none) ∧
    (∀ l₁ w l₂, order = l₁ ++ w :: l₂ → w ∈ winners → (∀ c ∈ l₁, c ∉ winners) →
      tie_break order winners = some w) := by
  constructor
  · intro hnone
    rw [tie_break, List.find?_eq_none]
    intro c hc
    simpa using hnone c hc
  · intro l₁ w l₂ horder hw hbefore
    subst horder
    induction l₁ with
    | nil =>
      rw [tie_break, List.nil_append, List.find?_cons_of_pos]
      simpa using hw
    | cons c t ih =>
      rw [List.cons_append, tie_break, List.find?_cons_of_neg]
      · exact ih (fun x hx => hbefore x (List.mem_cons_of_mem _ hx))
      · simpa using hbefore c (List.mem_cons_self _ _)

/-- Witness for C2: no element of `[1, 2, 3]` lies in `[5]`, so the tie break
returns `none`; the first element of `[1, 2, 3]` lying in `[3, 2]` is `2`. -/
theorem tie_break_first_match_witness :
    tie_break [1, 2, 3] [5] = none ∧ tie_break [1, 2, 3] [3, 2] = some 2 :=
  ⟨(tie_break_first_match [1, 2, 3] [5]).1 (by decide),
   (tie_break_first_match [1, 2, 3] [3, 2]).2 [1] 2 [3] rfl (by decide) (by decide)⟩

/-! ## C4: empty elections -/

/-- Counterexample to C4: on the profile `Pnovoters` with two candidates and an
empty voter list, `calculate_points` does not fail — both candidates keep
score 0, tie for the maximum, and the tie break returns candidate 1. -/
theorem calculate_points_empty_voters_ok :
    Pnovoters.voters = [] ∧ Pnovoters.candidates ≠ [] ∧
      calculate_points Pnovoters tie_break plurality_fn = .ok (some 1) :=
  ⟨rfl, by decide, rfl⟩

/-- C4 amended: `calculate_points` fails (with Python's `max`-over-empty
`ValueError`, the spec's `EmptyElectionError`) exactly when the candidate list
is empty; an empty voter list alone never causes a failure. -/
theorem calculate_points_error_iff_no_candidates (P : Preference) (tb : TieBreakFn)
    (f : ScoringFn) :
    (P.candidates = [] → calculate_points P tb f = .error "max() arg is an empty sequence") ∧
    (P.candidates ≠ [] → ∃ r, calculate_points P tb f = .ok r) := by
  constructor
  · intro hc
    rw [calculate_points, highest_score, hc]
    rfl
  · exact calculate_points_ok tb f

/-- Witness for C4's amended claim: with no candidates the aggregator raises,
with candidates but no voters it returns a winner. -/
theorem calculate_points_error_iff_no_candidates_witness :
    calculate_points ⟨[], [], fun _ _ => 0⟩ tie_break plurality_fn =
      .error "max() arg is an empty sequence" ∧
    ∃ r, calculate_points Pnovoters tie_break plurality_fn = .ok r :=
  ⟨(calculate_points_error_iff_no_candidates ⟨[], [], fun _ _ => 0⟩ tie_break plurality_fn).1
      rfl,
   (calculate_points_error_iff_no_candidates Pnovoters tie_break plurality_fn).2 (by decide)⟩

/-! ## C5: `scoring_rule` and invalid tie-break agents -/

/-- Counterexample to C5: `scoring_rule` on the one-candidate profile
`Psingle` with a matching score vector and the tie-break agent `99`, which is
not a voter, does not raise `InvalidAgentError` — it returns candidate 1. -/
theorem scoring_rule_invalid_agent_ok :
    (99 : Int) ∉ Psingle.voters ∧ [(5 : Int)].length = Psingle.candidates.length ∧
      scoring_rule Psingle [5] 99 = .ok (some 1) :=
  ⟨by decide, rfl, rfl⟩

/-- C5 amended: `scoring_rule` never checks the tie-break agent against
`voters()`; with a score vector of matching length and a non-empty candidate
list it returns a winner for every tie-break agent, member of `voters()` or
not. -/
theorem scoring_rule_no_agent_check (P : Preference) (score_vector : List Int)
    (tie_break_agent : Int) (hlen : score_vector.length = P.candidates.length)
    (hc : P.candidates ≠ []) :
    ∃ r, scoring_rule P score_vector tie_break_agent = .ok r := by
  rw [scoring_rule, if_neg (by rw [hlen]; exact fun h => h rfl)]
  exact calculate_points_ok _ _ hc

/-- Witness for C5's amended claim at the concrete profile `Psingle` with the
non-voter agent 99. -/
theorem scoring_rule_no_agent_check_witness :
    ∃ r, scoring_rule Psingle [5] 99 = .ok r :=
  scoring_rule_no_agent_check Psingle [5] 99 rfl (by decide)

/-! ## C6: `dictatorship` error behaviour -/

/-- Counterexample to C6: on the profile `Pnorankzero`, whose single voter
gives no candidate rank 0, `dictatorship` with the valid agent 1 returns
`None` (absence) instead of raising any error. -/
theorem dictatorship_no_rank_zero_returns_none :
    (1 : Int) ∈ Pnorankzero.voters ∧
    (∀ c ∈ Pnorankzero.candidates, Pnorankzero.get_preference c 1 ≠ 0) ∧
    dictatorship Pnorankzero 1 = .ok none :=
  ⟨by decide, by decide, rfl⟩

/-- C6 amended: for an agent that is not a voter, `dictatorship` fails with
`ValueError("Invalid agent")` (the spec's `InvalidAgentError`); for a voter
for whom no candidate has rank 0, it returns `None` (absence) rather than
raising `NoRankZeroCandidateError`. -/
theorem dictatorship_error_spec (P : Preference) (agent : Int) :
    (agent ∉ P.voters → dictatorship P agent = .error "Invalid agent") ∧
    (agent ∈ P.voters → (∀ c ∈ P.candidates, P.get_preference c agent ≠ 0) →
      dictatorship P agent = .ok none) := by
  constructor
  · intro hna
    rw [dictatorship, if_neg hna]
  · intro ha hnone
    rw [dictatorship, if_pos ha]
    congr 1
    rw [List.find?_eq_none]
    intro c hc
    simpa using hnone c hc

/-- Witness for C6's amended claim at concrete inputs: agent 5 is not a voter
of `P3`, and `Pnorankzero`'s voter 1 has no rank-0 candidate. -/
theorem dictatorship_error_spec_witness :
    dictatorship P3 5 = .error "Invalid agent" ∧
    dictatorship Pnorankzero 1 = .ok none :=
  ⟨(dictatorship_error_spec P3 5).1 (by decide),
   (dictatorship_error_spec Pnorankzero 1).2 (by decide) (by decide)⟩

/-! ## Helper lemmas about valid profiles and the plurality scores -/

theorem plurality_foldl (P : Preference) (c : Int) :
    ∀ (l : List Int) (s : Int → Int),
      (l.foldl (fun s v => plurality_fn P v s) s) c =
        s c + (if c ∈ P.candidates
          then ((l.countP (fun v => decide (P.get_preference c v = 0)) : Nat) : Int) else 0) := by
  intro l
  induction l with
  | nil => intro s; simp
  | cons v t ih =>
    intro s
    rw [List.foldl_cons, ih, List.countP_cons]
    simp only [plurality_fn]
    by_cases hmem : c ∈ P.candidates
    · by_cases h0 : P.get_preference c v = 0
      · simp only [hmem, h0, and_self, if_true]
        simp
        ring
      · simp [hmem, h0]
    · simp [hmem]

theorem accumulated_plurality (P : Preference) (c : Int) :
    accumulated_scores P plurality_fn c =
      if c ∈ P.candidates
        then ((P.voters.countP (fun v => decide (P.get_preference c v = 0)) : Nat) : Int)
        else 0 := by
  rw [accumulated_scores, plurality_foldl]
  simp

theorem valid_rank_injOn (P : Preference) (hP : P.valid) {v : Int} (hv : v ∈ P.voters) :
    ∀ c ∈ P.candidates, ∀ c' ∈ P.candidates,
      P.get_preference c v = P.get_preference c' v → c = c' := by
  have hperm := hP.2.2 v hv
  have hrange : ((List.range P.candidates.length).map (fun i : Nat => (i : Int))).Nodup :=
    (List.nodup_range _).map (fun i j hij => by exact_mod_cast hij)
  have hnd : (P.candidates.map (fun c => P.get_preference c v)).Nodup :=
    hperm.nodup_iff.mpr hrange
  exact fun c hc c' hc' h => List.inj_on_of_nodup_map hnd hc hc' h

theorem valid_rank_mem_range (P : Preference) (hP : P.valid) {v : Int} (hv : v ∈ P.voters)
    {c : Int} (hc : c ∈ P.candidates) :
    ∃ i : Nat, i < P.candidates.length ∧ P.get_preference c v = (i : Int) := by
  have hperm := hP.2.2 v hv
  have hmem :
      P.get_preference c v ∈ (List.range P.candidates.length).map (fun i : Nat => (i : Int)) :=
    hperm.mem_iff.mp (List.mem_map.mpr ⟨c, hc, rfl⟩)
  obtain ⟨i, hi, hval⟩ := List.mem_map.mp hmem
  exact ⟨i, List.mem_range.mp hi, hval.symm⟩

theorem filter_eq_single {l : List Int} {p : Int → Bool} {x : Int} (hnd : l.Nodup)
    (hx : x ∈ l) (hp : ∀ y ∈ l, p y = true ↔ y = x) : l.filter p = [x] := by
  induction l with
  | nil => cases hx
  | cons a t ih =>
    rcases List.nodup_cons.mp hnd with ⟨hat, hndt⟩
    rcases List.mem_cons.mp hx with hax | hxt
    · rw [List.filter_cons_of_pos ((hp a (List.mem_cons_self _ _)).mpr hax.symm)]
      have hT : t.filter p = [] := by
        rw [List.filter_eq_nil_iff]
        intro y hy hpy
        have hyx : y = x := (hp y (List.mem_cons_of_mem _ hy)).mp hpy
        rw [hyx] at hy
        exact hat (hax ▸ hy)
      rw [hT, hax]
    · have hax : a ≠ x := fun h => hat (h ▸ hxt)
      rw [List.filter_cons_of_neg (by
        intro hpa
        exact hax ((hp a (List.mem_cons_self _ _)).mp hpa))]
      exact ih hndt hxt (fun y hy => hp y (List.mem_cons_of_mem _ hy))

theorem find?_unique {l : List Int} {p : Int → Bool} {x : Int}
    (hx : x ∈ l) (hpx : p x = true) (hu : ∀ y ∈ l, p y = true → y = x) :
    l.find? p = some x := by
  induction l with
  | nil => cases hx
  | cons a t ih =>
    by_cases ha : p a = true
    · rw [List.find?_cons_of_pos _ ha, hu a (List.mem_cons_self _ _) ha]
    · rw [List.find?_cons_of_neg _ (by simpa using ha)]
      have hxt : x ∈ t := by
        rcases List.mem_cons.mp hx with h | h
        · exact absurd (h ▸ hpx) ha
        · exact h
      exact ih hxt (fun y hy => hu y (List.mem_cons_of_mem _ hy))

/-! ## C7: unanimous first choices -/

/-- C7: on a valid profile with at least one voter in which candidate `x` is
ranked 0 by every voter, plurality returns `x` for every tie-break function,
and dictatorship returns `x` for every agent in `voters()`. -/
theorem unanimous_first_choice_wins (P : Preference) (x : Int) (hP : P.valid)
    (hvne : P.voters ≠ []) (hx : x ∈ P.candidates)
    (h0 : ∀ v ∈ P.voters, P.get_preference x v = 0) :
    (∀ tb : TieBreakFn, plurality P tb = .ok (some x)) ∧
    (∀ agent ∈ P.voters, dictatorship P agent = .ok (some x)) := by
  have hL : accumulated_scores P plurality_fn x = (P.voters.length : Int) := by
    rw [accumulated_plurality, if_pos hx]
    congr 1
    rw [List.countP_eq_length]
    intro v hv
    simpa using h0 v hv
  have hother : ∀ c ∈ P.candidates, c ≠ x → accumulated_scores P plurality_fn c = 0 := by
    intro c hc hcx
    rw [accumulated_plurality, if_pos hc]
    have : P.voters.countP (fun v => decide (P.get_preference c v = 0)) = 0 := by
      rw [List.countP_eq_zero]
      intro v hv
      simp only [decide_eq_true_eq]
      intro hc0
      exact hcx (valid_rank_injOn P hP hv c hc x hx (by rw [hc0, h0 v hv]))
    rw [this]
    rfl
  have hvlen : 0 < P.voters.length := List.length_pos.mpr hvne
  have hhigh : highest_score P plurality_fn = some (P.voters.length : Int) := by
    have hcne : P.candidates ≠ [] := fun h => by rw [h] at hx; cases hx
    obtain ⟨m, hm, ⟨c, hcm, hcv⟩, hle⟩ := highest_score_some (f := plurality_fn) hcne
    have h1 : m ≤ (P.voters.length : Int) := by
      rcases eq_or_ne c x with hcx | hcx
      · rw [← hcv, hcx, hL]
      · rw [← hcv, hother c hcm hcx]
        exact_mod_cast Nat.zero_le _
    have h2 : (P.voters.length : Int) ≤ m := hL ▸ hle x hx
    rw [hm, le_antisymm h1 h2]
  have hwin : winnersOf P plurality_fn = [x] := by
    rw [winnersOf, hhigh]
    refine filter_eq_single hP.1 hx ?_
    intro y hy
    simp only [decide_eq_true_eq]
    constructor
    · intro hyl
      by_contra hyx
      rw [hother y hy hyx] at hyl
      have : (0 : Int) < (P.voters.length : Int) := by exact_mod_cast hvlen
      omega
    · intro h
      exact h ▸ hL
  refine ⟨fun tb => calculate_points_of_single hwin tb, ?_⟩
  intro agent ha
  rw [dictatorship, if_pos ha]
  congr 1
  refine find?_unique hx (by simpa using h0 agent ha) ?_
  intro y hy
  simp only [decide_eq_true_eq]
  intro hy0
  exact valid_rank_injOn P hP ha y hy x hx (by rw [hy0, h0 agent ha])

/-- Witness for C7 on the unanimous profile `P1` (both voters rank
`1 > 2 > 3`): plurality with the plain tie break and dictatorship with either
voter all return candidate 1. -/
theorem unanimous_first_choice_wins_witness :
    plurality P1 tie_break = .ok (some 1) ∧ dictatorship P1 2 = .ok (some 1) :=
  ⟨(unanimous_first_choice_wins P1 1 (by decide) (by decide) (by decide)
      (by decide)).1 tie_break,
   (unanimous_first_choice_wins P1 1 (by decide) (by decide) (by decide)
      (by decide)).2 2 (by decide)⟩

/-! ## Helper lemmas about STV -/

theorem stv_loop_nil (P : Preference) (voters : List Int) :
    ∀ fuel, stv_loop P voters fuel [] = []
  | 0 => rfl
  | fuel + 1 => by rw [stv_loop]; norm_num

theorem stv_loop_small (P : Preference) (voters : List Int) {remaining : List Int}
    (h : ¬ remaining.length > 1) : ∀ fuel, stv_loop P voters fuel remaining = remaining
  | 0 => rfl
  | fuel + 1 => by rw [stv_loop, if_neg h]

theorem stv_round_length_lt (P : Preference) (voters : List Int) {remaining : List Int}
    (hne : remaining ≠ []) :
    (stv_round P voters remaining).length < remaining.length := by
  have hmap : remaining.map (stv_scores P voters) ≠ [] := by simpa using hne
  obtain ⟨m, hm, hmem, -⟩ := pymin_spec hmap
  obtain ⟨c0, hc0, hc0v⟩ := List.mem_map.mp hmem
  rw [stv_round, hm, ← List.countP_eq_length_filter]
  have hle : remaining.countP (fun c => decide (stv_scores P voters c ≠ m)) ≤
      remaining.length := List.countP_le_length _
  rcases Nat.lt_or_ge
      (remaining.countP (fun c => decide (stv_scores P voters c ≠ m))) remaining.length with
    h | h
  · exact h
  · exfalso
    have heq : remaining.countP (fun c => decide (stv_scores P voters c ≠ m)) =
        remaining.length := Nat.le_antisymm hle h
    have hall := List.countP_eq_length.mp heq c0 hc0
    simp only [decide_eq_true_eq] at hall
    exact hall hc0v

theorem stv_loop_add (P : Preference) (voters : List Int) :
    ∀ (fuel k : Nat) (remaining : List Int), remaining.length ≤ fuel →
      stv_loop P voters (fuel + k) remaining = stv_loop P voters fuel remaining := by
  intro fuel
  induction fuel with
  | zero =>
    intro k remaining h
    rw [List.eq_nil_of_length_eq_zero (Nat.le_zero.mp h), stv_loop_nil, stv_loop_nil]
  | succ fuel ih =>
    intro k remaining h
    by_cases hlen : remaining.length > 1
    · have hne : remaining ≠ [] := by
        intro hnil; rw [hnil] at hlen; simp at hlen
      have hround : (stv_round P voters remaining).length ≤ fuel := by
        have := stv_round_length_lt P voters hne
        omega
      rw [show fuel + 1 + k = (fuel + k) + 1 by omega]
      rw [stv_loop, if_pos hlen]
      conv_rhs => rw [stv_loop, if_pos hlen]
      exact ih k _ hround
    · rw [stv_loop_small P voters hlen, stv_loop_small P voters hlen]

theorem stv_loop_exit (P : Preference) (voters : List Int) :
    ∀ (fuel : Nat) (remaining : List Int), remaining.length ≤ fuel →
      (stv_loop P voters fuel remaining).length ≤ 1 := by
  intro fuel
  induction fuel with
  | zero =>
    intro remaining h
    have := List.eq_nil_of_length_eq_zero (Nat.le_zero.mp h)
    rw [this, stv_loop_nil]
    exact Nat.zero_le 1
  | succ fuel ih =>
    intro remaining h
    by_cases hlen : remaining.length > 1
    · have hne : remaining ≠ [] := by
        intro hnil; rw [hnil] at hlen; simp at hlen
      rw [stv_loop, if_pos hlen]
      refine ih _ ?_
      have := stv_round_length_lt P voters hne
      omega
    · rw [stv_loop_small P voters hlen]
      omega

/-! ## C8: candidates never ranked first are eliminated in round 1 -/

/-- C8: when the election has more than one candidate (so the STV loop runs at
least one round), a candidate that no voter ranks at position 0 is removed by
the first elimination round, and the STV loop indeed proceeds from that first
round's result. -/
theorem stv_first_round_eliminates_never_first (P : Preference) (c : Int)
    (hc : c ∈ P.candidates) (hlen : P.candidates.length > 1)
    (h0 : ∀ v ∈ P.voters, P.get_preference c v ≠ 0) :
    c ∉ stv_round P P.voters P.candidates ∧
    stv_loop P P.voters P.candidates.length P.candidates =
      stv_loop P P.voters (P.candidates.length - 1) (stv_round P P.voters P.candidates) := by
  have hzero : stv_scores P P.voters c = 0 := by
    rw [stv_scores, List.countP_eq_zero]
    intro v hv
    simpa using h0 v hv
  have hne : P.candidates ≠ [] := by intro h; rw [h] at hlen; simp at hlen
  have hmap : P.candidates.map (stv_scores P P.voters) ≠ [] := by simpa using hne
  obtain ⟨m, hm, hmem, hle⟩ := pymin_spec hmap
  have hm0 : m = 0 := Nat.le_zero.mp (hzero ▸ hle _ (List.mem_map.mpr ⟨c, hc, rfl⟩))
  constructor
  · rw [stv_round, hm]
    intro hmem2
    have hpc := (List.mem_filter.mp hmem2).2
    simp only [decide_eq_true_eq] at hpc
    exact hpc (by rw [hzero, hm0])
  · have h2 : P.candidates.length - 1 + 1 = P.candidates.length := by omega
    conv_lhs => rw [← h2]
    rw [stv_loop, if_pos hlen]

/-- Witness for C8 on the unanimous profile `P1`: candidate 3 is never ranked
first and is eliminated in the first round. -/
theorem stv_first_round_eliminates_never_first_witness :
    3 ∉ stv_round P1 P1.voters P1.candidates ∧
    stv_loop P1 P1.voters P1.candidates.length P1.candidates =
      stv_loop P1 P1.voters (P1.candidates.length - 1) (stv_round P1 P1.voters P1.candidates) :=
  stv_first_round_eliminates_never_first P1 3 (by decide) (by decide) (by decide)

/-! ## C9: a full tie eliminates everyone and STV returns no winner -/

/-- C9: whenever every remaining candidate's first-place count is the same
(so every count equals the round's minimum), the round eliminates all of them
simultaneously, the loop then stops with the empty set, and — concretely — on
the cyclic profile `P3` STV returns no winner. -/
theorem stv_all_tied_no_winner (P : Preference) (voters remaining : List Int)
    (hne : remaining ≠ [])
    (htie : ∀ c ∈ remaining, ∀ c' ∈ remaining,
      stv_scores P voters c = stv_scores P voters c') :
    stv_round P voters remaining = [] ∧
    (remaining.length > 1 → ∀ fuel, stv_loop P voters (fuel + 1) remaining = []) ∧
    STV P3 (0 : Int) = none := by
  have hround : stv_round P voters remaining = [] := by
    have hmap : remaining.map (stv_scores P voters) ≠ [] := by simpa using hne
    obtain ⟨m, hm, hmem, -⟩ := pymin_spec hmap
    obtain ⟨c0, hc0, hc0v⟩ := List.mem_map.mp hmem
    rw [stv_round, hm, List.filter_eq_nil_iff]
    intro c hc
    simp only [decide_eq_true_eq, not_not]
    rw [htie c hc c0 hc0]
    exact hc0v
  refine ⟨hround, ?_, rfl⟩
  intro hlen fuel
  rw [stv_loop, if_pos hlen, hround, stv_loop_nil]

/-- Witness for C9 on the cyclic profile `P3`, where the three first-place
counts are all 1: the first round empties the candidate set and STV returns
`none`. -/
theorem stv_all_tied_no_winner_witness :
    stv_round P3 P3.voters [1, 2, 3] = [] ∧
    stv_loop P3 P3.voters 3 [1, 2, 3] = [] ∧
    STV P3 (0 : Int) = none :=
  ⟨(stv_all_tied_no_winner P3 P3.voters [1, 2, 3] (by decide) (by decide)).1,
   ((stv_all_tied_no_winner P3 P3.voters [1, 2, 3] (by decide) (by decide)).2.1
      (by decide) 2),
   (stv_all_tied_no_winner P3 P3.voters [1, 2, 3] (by decide) (by decide)).2.2⟩

/-! ## C10: STV terminates -/

/-- C10: every round run on more than one remaining candidate removes at least
one of them, so the loop's fuel `|candidates|` is never exhausted before the
loop condition `|remaining| > 1` fails: with any fuel at least `|remaining|`
the loop computes the same result, of length at most 1. -/
theorem stv_terminates (P : Preference) (voters : List Int) :
    (∀ remaining : List Int, remaining.length > 1 →
      (stv_round P voters remaining).length < remaining.length) ∧
    (∀ (fuel : Nat) (remaining : List Int), remaining.length ≤ fuel →
      stv_loop P voters fuel remaining = stv_loop P voters remaining.length remaining ∧
      (stv_loop P voters fuel remaining).length ≤ 1) := by
  constructor
  · intro remaining hlen
    refine stv_round_length_lt P voters ?_
    intro h; rw [h] at hlen; simp at hlen
  · intro fuel remaining h
    constructor
    · have hadd := stv_loop_add P voters remaining.length (fuel - remaining.length)
        remaining (Nat.le_refl _)
      rw [show remaining.length + (fuel - remaining.length) = fuel by omega] at hadd
      exact hadd
    · exact stv_loop_exit P voters fuel remaining h

/-- Witness for C10 on the cyclic profile `P3`: the first round on three
candidates eliminates at least one, and the loop's result with extra fuel
matches the result with fuel 3 and has at most one element. -/
theorem stv_terminates_witness :
    (stv_round P3 P3.voters [1, 2, 3]).length < 3 ∧
    stv_loop P3 P3.voters 5 [1, 2, 3] = stv_loop P3 P3.voters 3 [1, 2, 3] ∧
    (stv_loop P3 P3.voters 5 [1, 2, 3]).length ≤ 1 :=
  ⟨(stv_terminates P3 P3.voters).1 [1, 2, 3] (by decide),
   ((stv_terminates P3 P3.voters).2 5 [1, 2, 3] (by decide)).1,
   ((stv_terminates P3 P3.voters).2 5 [1, 2, 3] (by decide)).2⟩

/-! ## C3 development -/

theorem bordaVector_length (n : Nat) : (bordaVector n).length = n := by
  rw [bordaVector, List.length_map, List.length_range]

theorem bordaVector_getD {n i : Nat} (h : i < n) :
    (bordaVector n).getD i 0 = (n : Int) - 1 - (i : Int) := by
  have hlt : i < (bordaVector n).length := by rw [bordaVector_length]; exact h
  rw [List.getD_eq_getElem?_getD, List.getElem?_eq_getElem hlt]
  simp [bordaVector]

theorem sortKey_insertionSort_eq_range (P : Preference) (hP : P.valid) {v : Int}
    (hv : v ∈ P.voters) :
    (List.insertionSort
        (fun a b => P.get_preference a v ≤ P.get_preference b v) P.candidates).map
      (fun c => P.get_preference c v) =
    (List.range P.candidates.length).map (fun i : Nat => (i : Int)) := by
  haveI h1 : IsTotal Int (fun a b => P.get_preference a v ≤ P.get_preference b v) :=
    ⟨fun a b => le_total _ _⟩
  haveI h2 : IsTrans Int (fun a b => P.get_preference a v ≤ P.get_preference b v) :=
    ⟨fun a b c hab hbc => le_trans hab hbc⟩
  have hsorted := List.sorted_insertionSort
    (fun a b => P.get_preference a v ≤ P.get_preference b v) P.candidates
  have hmapsorted :
      ((List.insertionSort (fun a b => P.get_preference a v ≤ P.get_preference b v)
        P.candidates).map (fun c => P.get_preference c v)).Sorted (· ≤ ·) :=
    List.pairwise_map.mpr hsorted
  have hperm :
      ((List.insertionSort (fun a b => P.get_preference a v ≤ P.get_preference b v)
        P.candidates).map (fun c => P.get_preference c v)).Perm
        ((List.range P.candidates.length).map (fun i : Nat => (i : Int))) :=
    ((List.perm_insertionSort _ P.candidates).map _).trans (hP.2.2 v hv)
  have hrangesorted :
      (((List.range P.candidates.length).map (fun i : Nat => (i : Int)))).Sorted (· ≤ ·) :=
    List.pairwise_map.mpr ((List.pairwise_lt_range _).imp
      (fun h => by exact_mod_cast le_of_lt h))
  exact List.eq_of_perm_of_sorted hperm hmapsorted hrangesorted

theorem insertionSort_rank_position (P : Preference) (hP : P.valid) {v : Int}
    (hv : v ∈ P.voters) (i : Nat)
    (h : i < (List.insertionSort
        (fun a b => P.get_preference a v ≤ P.get_preference b v) P.candidates).length) :
    P.get_preference
        ((List.insertionSort
          (fun a b => P.get_preference a v ≤ P.get_preference b v) P.candidates).get ⟨i, h⟩) v
      = (i : Int) := by
  have heq := sortKey_insertionSort_eq_range P hP hv
  have hlen : (List.insertionSort
      (fun a b => P.get_preference a v ≤ P.get_preference b v) P.candidates).length =
      P.candidates.length := (List.perm_insertionSort _ _).length_eq
  have h2 : i < ((List.insertionSort
      (fun a b => P.get_preference a v ≤ P.get_preference b v) P.candidates).map
      (fun c => P.get_preference c v)).length := by simpa using h
  have hmap : ((List.insertionSort
      (fun a b => P.get_preference a v ≤ P.get_preference b v) P.candidates).map
      (fun c => P.get_preference c v))[i] = P.get_preference
        ((List.insertionSort
          (fun a b => P.get_preference a v ≤ P.get_preference b v) P.candidates).get ⟨i, h⟩) v :=
    List.getElem_map _
  rw [← hmap]
  have hi : i < P.candidates.length := hlen ▸ h
  simp only [heq]
  simp [hi]

theorem enum_foldl_eq_foldl (sv : List Int) (g : Int → Int) :
    ∀ (l : List Int) (k : Nat) (s : Int → Int),
      (∀ i (h : i < l.length), sv.getD (k + i) 0 = g (l.get ⟨i, h⟩)) →
      (l.enumFrom k).foldl
          (fun s p => fun y => if y = p.2 then s y + sv.getD p.1 0 else s y) s =
        l.foldl (fun s c => fun y => if y = c then s y + g c else s y) s := by
  intro l
  induction l with
  | nil => intro k s h; rfl
  | cons c t ih =>
    intro k s h
    rw [List.enumFrom_cons, List.foldl_cons, List.foldl_cons]
    have h0 : sv.getD k 0 = g c := by
      have := h 0 (by simp)
      simpa using this
    rw [h0]
    exact ih (k + 1) _ (fun i hi => by
      have := h (i + 1) (by simpa using Nat.succ_lt_succ hi)
      simpa [Nat.add_assoc, Nat.add_comm 1 i] using this)

theorem foldl_update_nodup (g : Int → Int) :
    ∀ (l : List Int) (s : Int → Int) (x : Int), l.Nodup →
      (l.foldl (fun s c => fun y => if y = c then s y + g c else s y) s) x =
        if x ∈ l then s x + g x else s x := by
  intro l
  induction l with
  | nil => intro s x h; simp
  | cons c t ih =>
    intro s x hnd
    rcases List.nodup_cons.mp hnd with ⟨hct, hndt⟩
    rw [List.foldl_cons, ih _ x hndt]
    by_cases hx : x ∈ t
    · have hxc : x ≠ c := fun h => hct (h ▸ hx)
      rw [if_pos hx, if_pos (List.mem_cons_of_mem _ hx), if_neg hxc]
    · rw [if_neg hx]
      by_cases hxc : x = c
      · subst hxc
        rw [if_pos rfl, if_pos (List.mem_cons_self _ _)]
      · rw [if_neg hxc, if_neg (by simp [List.mem_cons, hxc, hx])]

theorem scoring_rule_fn_borda (P : Preference) (hP : P.valid) {v : Int} (hv : v ∈ P.voters)
    (s : Int → Int) :
    scoring_rule_fn (bordaVector P.candidates.length) P v s = borda_fn P v s := by
  funext x
  rw [scoring_rule_fn, borda_fn]
  have hSnd : (List.insertionSort
      (fun a b => P.get_preference a v ≤ P.get_preference b v) P.candidates).Nodup :=
    ((List.perm_insertionSort _ _).nodup_iff).mpr hP.1
  have hlen : (List.insertionSort
      (fun a b => P.get_preference a v ≤ P.get_preference b v) P.candidates).length =
      P.candidates.length := (List.perm_insertionSort _ _).length_eq
  have hg : ∀ i (hi : i < (List.insertionSort
      (fun a b => P.get_preference a v ≤ P.get_preference b v) P.candidates).length),
      (bordaVector P.candidates.length).getD (0 + i) 0 =
        (P.candidates.length : Int) - 1 -
          P.get_preference ((List.insertionSort
            (fun a b => P.get_preference a v ≤ P.get_preference b v)
            P.candidates).get ⟨i, hi⟩) v := by
    intro i hi
    rw [insertionSort_rank_position P hP hv i hi, Nat.zero_add,
      bordaVector_getD (hlen ▸ hi)]
  rw [List.enum, enum_foldl_eq_foldl _
    (fun c => (P.candidates.length : Int) - 1 - P.get_preference c v) _ 0 s hg,
    foldl_update_nodup _ _ s x hSnd]
  by_cases hx : x ∈ P.candidates
  · rw [if_pos ((List.mem_insertionSort _).mpr hx), if_pos hx]
  · rw [if_neg (fun h => hx ((List.mem_insertionSort _).mp h)), if_neg hx]

theorem accumulated_scores_congr (P : Preference) (f g : ScoringFn)
    (h : ∀ v ∈ P.voters, ∀ s : Int → Int, f P v s = g P v s) :
    accumulated_scores P f = accumulated_scores P g := by
  rw [accumulated_scores, accumulated_scores]
  have hgen : ∀ (l : List Int) (s : Int → Int), (∀ v ∈ l, ∀ s' : Int → Int, f P v s' = g P v s') →
      l.foldl (fun s v => f P v s) s = l.foldl (fun s v => g P v s) s := by
    intro l
    induction l with
    | nil => intro s h'; rfl
    | cons v t ih =>
      intro s h'
      rw [List.foldl_cons, List.foldl_cons, h' v (List.mem_cons_self _ _) s]
      exact ih _ (fun u hu s' => h' u (List.mem_cons_of_mem _ hu) s')
  exact hgen P.voters _ h

theorem calculate_points_congr (P : Preference) (tb : TieBreakFn) (f g : ScoringFn)
    (h : accumulated_scores P f = accumulated_scores P g) :
    calculate_points P tb f = calculate_points P tb g := by
  simp only [calculate_points, winnersOf, highest_score, h]

/-- C3: on a valid profile the generalized scoring rule with score vector
`[n-1, n-2, ..., 0]` returns exactly what `borda` returns when `borda` is
given the same tie-break ordering. -/
theorem scoring_rule_borda_equiv (P : Preference) (hP : P.valid) (tie_break_agent : Int) :
    scoring_rule P (bordaVector P.candidates.length) tie_break_agent =
      borda P (scoring_rule_tb P tie_break_agent) := by
  rw [scoring_rule, if_neg (by rw [bordaVector_length]; exact fun h => h rfl), borda]
  exact calculate_points_congr P _ _ _
    (accumulated_scores_congr P _ _ (fun v hv s => scoring_rule_fn_borda P hP hv s))

/-- Witness for C3 on the valid cyclic profile `P3` with tie-break agent 2. -/
theorem scoring_rule_borda_equiv_witness :
    scoring_rule P3 (bordaVector P3.candidates.length) 2 =
      borda P3 (scoring_rule_tb P3 2) :=
  scoring_rule_borda_equiv P3 (by decide) 2

end Voting
